import Mathlib

/-!
Verification of the cantera-table write-once backend against its
natural-language specification.  All definitions are shallow embeddings of
the C/C++ sources: src/sort.cc (WriteOnceBuilder / WriteOnceTable),
src/format.c (ca_format_integer) and src/select.c (ca_parse_integer).
Bytes are modelled as natural numbers below 256, byte regions as List Nat,
and machine integers as Nat with explicit reduction modulo 2 ^ 64 where the
C code can overflow.
-/

/-- 2 ^ 64, the modulus of uint64_t arithmetic. -/
def u64Mod : Nat := 18446744073709551616

/-- Byte-wise three-way comparison of byte strings, the semantics of both
std::string_view::compare and memcmp-based comparison with the shorter
string ordered first on a common-prefix tie. -/
def lexCmp : List Nat → List Nat → Ordering
  | [], [] => .eq
  | [], _ :: _ => .lt
  | _ :: _, [] => .gt
  | a :: as, b :: bs =>
    if a < b then .lt
    else if b < a then .gt
    else lexCmp as bs

/-- Byte-wise strict lexicographic order, the semantics of operator< on
std::string_view (spec 8.5: keys are compared byte-wise). -/
def lexLt (a b : List Nat) : Bool := lexCmp a b == Ordering.lt

/-!  Varint codec.

src/format.c ca_format_integer writes a uint64 as big-endian 7-bit groups,
setting bit 7 on every byte but the last; the terminal byte is value mod 128.
src/select.c ca_parse_integer folds bytes left to right while bit 7 of the
current byte is set, keeping the accumulator in uint64.
-/

/-- The loop of ca_format_integer with an explicit iteration bound: each
round prepends 0x80 bitor (value mod 256) = 128 + value mod 128 and shifts
the value right by 7, stopping at zero.  The bound is structural fuel only;
fuel at least v always suffices because v / 128 < v. -/
def caFormatAuxGo : Nat → Nat → List Nat
  | _, 0 => []
  | 0, _ + 1 => []
  | fuel + 1, v + 1 =>
    caFormatAuxGo fuel ((v + 1) / 128) ++ [128 + (v + 1) % 128]

/-- Continuation bytes of ca_format_integer (src/format.c lines 14-19). -/
def caFormatAux (v : Nat) : List Nat := caFormatAuxGo v v

/-- ca_format_integer (src/format.c lines 5-24): terminal byte value mod 128
preceded by the continuation bytes of value / 128. -/
def caFormatInteger (v : Nat) : List Nat :=
  caFormatAux (v / 128) ++ [v % 128]

/-- The decoding loop of ca_parse_integer (src/select.c lines 919-935):
cur is the byte currently looked at, acc the accumulator so far; while bit 7
of cur is set the next byte is shifted in (uint64 arithmetic).  Returns the
decoded value and the number of bytes consumed, or none when the input list
ends while a continuation bit demands one more byte. -/
def caParseAux : Nat → Nat → List Nat → Option (Nat × Nat)
  | cur, acc, [] => if cur < 128 then some (acc, 1) else none
  | cur, acc, b :: r =>
    if cur < 128 then some (acc, 1)
    else
      (caParseAux b ((acc * 128 + b % 128) % u64Mod) r).map
        (fun p => (p.1, p.2 + 1))

/-- ca_parse_integer (src/select.c lines 919-935) on a byte list, returning
the decoded uint64 and the number of bytes consumed. -/
def caParseInteger : List Nat → Option (Nat × Nat)
  | [] => none
  | b :: r => caParseAux b (b % 128) r

/-- Decoder state just after consuming a continuation byte: acc has been
accumulated, l holds the remaining bytes. -/
def caParseCont (acc : Nat) : List Nat → Option (Nat × Nat)
  | [] => none
  | b :: r =>
    (caParseAux b ((acc * 128 + b % 128) % u64Mod) r).map
      (fun p => (p.1, p.2 + 1))

/-!  Builder entries and the hybrid comparator.

WriteOnceBuilder (src/sort.cc lines 470-544) keeps per-pair fixed-width
entries holding the spill-file offset, the key and value sizes and the first
min(24, key_size) key bytes, and stable-sorts them with Compare, which first
compares the inline fragments and falls back to positional reads of the full
keys from the spill file.
-/

/-- Entry (src/sort.cc lines 470-475).  The pfx field models the first
min(24, key_size) bytes of the 24-byte prefix array; Compare never reads the
array beyond that count. -/
structure BEntry where
  offset : Nat
  key_size : Nat
  value_size : Nat
  pfx : List Nat
deriving DecidableEq

/-- A positional read of len bytes at off, the semantics of
RandomIO::Read on the spill file (src/sort.cc lines 243-251). -/
def spillRead (spill : List Nat) (off len : Nat) : List Nat :=
  (spill.drop off).take len

/-- The full key of an entry, as read back from the spill file. -/
def entryKey (spill : List Nat) (e : BEntry) : List Nat :=
  spillRead spill e.offset e.key_size

/-- WriteOnceBuilder::Compare (src/sort.cc lines 509-526): compare the
inline fragments of length min(24, key_size); on a tie read both full keys
from the spill file and compare those with operator< on string_view. -/
def entryCompare (spill : List Nat) (l r : BEntry) : Bool :=
  match lexCmp (l.pfx.take (min 24 l.key_size)) (r.pfx.take (min 24 r.key_size)) with
  | .lt => true
  | .gt => false
  | .eq => lexLt (entryKey spill l) (entryKey spill r)

/-- The Entry invariant (spec 3, Entry): the stored fragment holds the first
bytes of the key as present on the spill file, and the full key lies inside
the spill file. -/
def EntryInv (spill : List Nat) (e : BEntry) : Prop :=
  (entryKey spill e).length = e.key_size ∧
  e.pfx = (entryKey spill e).take 24

/-!  The build pipeline.

WriteOnceBuilder (src/sort.cc lines 417-709): Add appends raw key and value
bytes to the spill file and records an entry; Build flushes, stable-sorts
the entries, creates the destination with a 24-byte header and emits blocks
followed by the block index.  Block counts are written with the third-party
oroch varint codec, which is absent from src; it is modelled here with the
varint layout the spec gives in sections 3 and 6 (the encodings agree on
every count below 128, which covers all concrete inputs used below).
-/

/-- One step of ingestion (src/sort.cc AddEntry lines 477-493 and
WriteEntryData lines 495-501), carrying the running spill offset. -/
def ingestGo : Nat → List (List Nat × List Nat) → List BEntry × List Nat
  | _, [] => ([], [])
  | off, (k, v) :: rest =>
    let r := ingestGo (off + k.length + v.length) rest
    (⟨off, k.length, v.length, k.take 24⟩ :: r.1, (k ++ v) ++ r.2)

/-- All Add calls of a build: the entry vector and the spill file bytes. -/
def ingest (pairs : List (List Nat × List Nat)) : List BEntry × List Nat :=
  ingestGo 0 pairs

/-- Stable insertion: x goes in front of the first strictly greater element,
hence after every earlier-inserted equivalent element.  For a strict weak
order this reproduces the output of std::stable_sort
(src/sort.cc SortEntries lines 528-544). -/
def stableInsert {α : Type} (lt : α → α → Bool) (x : α) : List α → List α
  | [] => [x]
  | y :: ys => if lt x y then x :: y :: ys else y :: stableInsert lt x ys

/-- Stable sort by left-to-right insertion. -/
def stableSortOf {α : Type} (lt : α → α → Bool) (l : List α) : List α :=
  l.foldl (fun acc x => stableInsert lt x acc) []

/-- kBlockSizeMax = 2 * kBlockSizeMin - 1 = 32767 (src/sort.cc line 162). -/
def kBlockSizeMax : Nat := 32767

/-- kEntrySizeLimit = kBlockSizeMin / 2 = 16384 / 2 = 8192
(src/sort.cc line 166). -/
def kEntrySizeLimit : Nat := 8192

/-- Total key plus value bytes held by a block
(key_data_.size() + value_data_.size() in src/sort.cc lines 320-374). -/
def blockBytes (b : List (List Nat × List Nat)) : Nat :=
  (b.map (fun p => p.1.length + p.2.length)).sum

/-- WriteOnceBlock::Add acceptance test (src/sort.cc lines 322-334):
the pair is taken iff the accumulated key and value bytes plus the new pair
stay within kBlockSizeMax. -/
def blockFits (b : List (List Nat × List Nat)) (k v : List Nat) : Bool :=
  blockBytes b + k.length + v.length ≤ kBlockSizeMax

/-- A u32 in little-endian byte order, the layout DataBuffer::append gives a
std::vector of uint32_t on a little-endian machine. -/
def u32le (n : Nat) : List Nat :=
  [n % 256, n / 256 % 256, n / 65536 % 256, n / 16777216 % 256]

/-- WriteOnceBlock::Marshal (src/sort.cc lines 344-362): nothing for an
empty block, otherwise varint count, key sizes, value sizes, key bytes,
value bytes. -/
def blockMarshal (b : List (List Nat × List Nat)) : List Nat :=
  if b.isEmpty then []
  else
    caFormatInteger b.length ++
    (b.map (fun p => u32le p.1.length)).flatten ++
    (b.map (fun p => u32le p.2.length)).flatten ++
    (b.map Prod.fst).flatten ++
    (b.map Prod.snd).flatten

/-- WriteOnceIndex::Marshal (src/sort.cc lines 387-404): nothing when no
block was written, otherwise varint count, block sizes, last-key sizes,
last-key bytes. -/
def indexMarshal (idx : List (Nat × List Nat)) : List Nat :=
  if idx.isEmpty then []
  else
    caFormatInteger idx.length ++
    (idx.map (fun e => u32le e.1)).flatten ++
    (idx.map (fun e => u32le e.2.length)).flatten ++
    (idx.map Prod.snd).flatten

/-- WriteOnceBuilder::WriteFinalData (src/sort.cc lines 596-638) on the
sorted entry list: entries above kEntrySizeLimit are skipped and counted;
the rest are re-read from the spill file and packed greedily into blocks;
a full block is written (recording its marshalled size and last key in the
index descriptor) and the entry is retried on an empty block; a pair that
does not fit an empty block is fatal (none).  WriteBlock skips empty
blocks, which on this loop only happens for the trailing block: a mid-loop
rotation always has a non-empty current block because every kept entry fits
an empty one.  Returns the blocks, the index entries and the large count. -/
def writeFinalGo (spill : List Nat) :
    List BEntry → List (List Nat × List Nat) → List Nat →
    Option (List (List (List Nat × List Nat)) × List (Nat × List Nat) × Nat)
  | [], cur, lastKey =>
    if cur.isEmpty then some ([], [], 0)
    else some ([cur], [((blockMarshal cur).length, lastKey)], 0)
  | e :: rest, cur, lastKey =>
    if kEntrySizeLimit < e.key_size + e.value_size then
      (writeFinalGo spill rest cur lastKey).map
        (fun r => (r.1, r.2.1, r.2.2 + 1))
    else
      let buf := spillRead spill e.offset (e.key_size + e.value_size)
      let k := buf.take e.key_size
      let v := buf.drop e.key_size
      if blockFits cur k v then
        writeFinalGo spill rest (cur ++ [(k, v)]) k
      else if blockFits [] k v then
        (writeFinalGo spill rest [(k, v)] k).map
          (fun r => (cur :: r.1, ((blockMarshal cur).length, lastKey) :: r.2.1,
            r.2.2))
      else none

/-- CA_wo_header as assigned by CreateFile (src/sort.cc lines 564-576).
Every field is stored except index_offset: its assignment is commented out
(line 572) and CommitFile (lines 578-590) only chmods, renames and fsyncs,
so the field keeps its unspecified stack value - modelled as none. -/
structure WoHeader where
  magic : Nat
  major_version : Nat
  minor_version : Nat
  flags : Nat
  compression : Nat
  compression_level : Nat
  data_reserved : Nat
  index_offset : Option Nat
deriving DecidableEq

/-- The header CreateFile writes: MAGIC, version 4.0, the ascending flag
hard-coded, compression none (the default; the spec scopes the codec to
none in section 1), index_offset never assigned. -/
def createFileHeader : WoHeader :=
  ⟨0x6c6261742e692e70, 4, 0, 1, 0, 0, 0, none⟩

/-- The whole Build (src/sort.cc lines 455-467): flush, stable sort with
the hybrid comparator over the spill file, header, blocks, block index.
The resulting file is the 24 header bytes followed by this data. -/
def writeOnceBuild (pairs : List (List Nat × List Nat)) :
    Option (WoHeader × List Nat) :=
  (writeFinalGo (ingest pairs).2
      (stableSortOf (entryCompare (ingest pairs).2) (ingest pairs).1) [] []).map
    (fun r => (createFileHeader, (r.1.map blockMarshal).flatten ++ indexMarshal r.2.1))

/-- The bytes Build writes after the 24-byte header. -/
def writeOnceBuildData (pairs : List (List Nat × List Nat)) : Option (List Nat) :=
  (writeOnceBuild pairs).map Prod.snd

/-!  The reader. -/

/-- The 24 header bytes CreateFile emits, little-endian: magic, major 4,
minor 0, flags = 1 (ascending), compression 0, level 0, reserved 0, and the
eight bytes of the never-assigned index_offset field, an arbitrary stack
image g0..g7. -/
def headerBytesG (g0 g1 g2 g3 g4 g5 g6 g7 : Nat) : List Nat :=
  [0x70, 0x2e, 0x69, 0x2e, 0x74, 0x61, 0x62, 0x6c,
   4, 0, 1, 0, 0, 0, 0, 0, g0, g1, g2, g3, g4, g5, g6, g7]

/-- Bytes up to the first NUL, the view strlen and a NUL-terminated string
comparison give of memory (src/sort.cc lines 1040 and 1081). -/
def takeUntilZero : List Nat → List Nat
  | [] => []
  | b :: r => if b = 0 then [] else b :: takeUntilZero r

/-- Number of leading bytes with the continuation bit set, the distance the
reader skips over a varint header with while ((*data) & 0x80) ++data
(src/sort.cc line 1037). -/
def skipCont : List Nat → Nat
  | [] => 0
  | b :: r => if 128 ≤ b then skipCont r + 1 else 0

/-- The stored key SeekToKey reads at a candidate offset (src/sort.cc lines
1035-1040): skip the varint record header, then the NUL-terminated string. -/
def keyAt (buf : List Nat) (off : Nat) : List Nat :=
  takeUntilZero (buf.drop (off + skipCont (buf.drop off) + 1))

/-- Result of one ReadRow call: a row with the next cursor, end of table,
or a failed requirement or assertion. -/
inductive RowResult
  | fail
  | eot
  | row (key value : List Nat) (next : Nat)
deriving DecidableEq

/-- WriteOnceTable::ReadRow (src/sort.cc lines 1068-1092): require the
cursor at or past the header; end of table when the cursor reached
index_offset or the first byte is zero; otherwise parse the varint record
size, read the NUL-terminated key, assert size exceeds the key length, and
return the value and the advanced cursor. -/
def readRowM (buf : List Nat) (off indexOff : Nat) : RowResult :=
  if off < 24 then .fail
  else if indexOff ≤ off ∨ (buf.drop off).headD 0 = 0 then .eot
  else
    match caParseInteger (buf.drop off) with
    | none => .fail
    | some (size, vlen) =>
      if size ≤ (takeUntilZero ((buf.drop off).drop vlen)).length then .fail
      else
        .row (takeUntilZero ((buf.drop off).drop vlen))
          (((buf.drop off).drop
              (vlen + (takeUntilZero ((buf.drop off).drop vlen)).length + 1)).take
            (size - (takeUntilZero ((buf.drop off).drop vlen)).length - 1))
          (off + vlen + size)

/-- The major-version acceptance test of WriteOnceTable::MemoryMap
(src/sort.cc lines 1116-1117), verbatim:
major_version <= MAJOR_VERSION (4) or major_version >= 2. -/
def versionOk (v : Nat) : Bool := (v ≤ 4) || (2 ≤ v)

/-- A u64 from little-endian bytes. -/
def u64leDecode (l : List Nat) : Nat :=
  l.foldr (fun b acc => b + 256 * acc) 0

/-- The requirements of WriteOnceTable::MemoryMap (src/sort.cc lines
1096-1135) that decide whether a reopen succeeds: the file must be strictly
longer than the 24-byte header, the major version must pass versionOk, and
the magic must match. -/
def memoryMapCheck (buf : List Nat) : Bool :=
  decide (24 < buf.length) && versionOk (buf.getD 8 0) &&
    decide (u64leDecode (buf.take 8) = 0x6c6261742e692e70)

/-- WriteOnceTable::IsSorted (src/sort.cc lines 953-955) on the mapped
header bytes: bit 0 of the little-endian u16 flags field at offset 10. -/
def isSortedFile (buf : List Nat) : Bool :=
  decide ((buf.getD 10 0 + 256 * buf.getD 11 0) % 2 = 1)

/-- WriteOnceTable::IsSorted on the header structure. -/
def isSortedHeader (h : WoHeader) : Bool := decide (h.flags % 2 = 1)

/-- The four pairs of scenario S1 CanWriteThenRead, in ingest order:
a:xxx, b:yyy, c:zzz, d:www. -/
def s1Pairs : List (List Nat × List Nat) :=
  [([97], [120, 120, 120]), ([98], [121, 121, 121]),
   ([99], [122, 122, 122]), ([100], [119, 119, 119])]

/-- The four pairs of scenario S3 CanWriteThenReadUnsorted, in ingest
order: a:xxx, c:zzz, d:www, b:yyy. -/
def s3Pairs : List (List Nat × List Nat) :=
  [([97], [120, 120, 120]), ([99], [122, 122, 122]),
   ([100], [119, 119, 119]), ([98], [121, 121, 121])]

/-- The single pair a:xxx. -/
def c1Pairs : List (List Nat × List Nat) := [([97], [120, 120, 120])]

/-- The bytes Build writes after the header for c1Pairs: one block
(count 1, key size 1, value size 3, key a, value xxx) followed by the
block index (count 1, block size 13, key size 1, last key a). -/
def c1DataBytes : List Nat :=
  [1, 1, 0, 0, 0, 3, 0, 0, 0, 97, 120, 120, 120,
   1, 13, 0, 0, 0, 1, 0, 0, 0, 97]

/-- The bytes Build writes after the header for s1Pairs: one 49-byte block
(count 4, four key sizes, four value sizes, keys abcd, the twelve value
bytes) followed by the block index (count 1, block size 49, key size 1,
last key d). -/
def s1DataBytes : List Nat :=
  [4, 1, 0, 0, 0, 1, 0, 0, 0, 1, 0, 0, 0, 1, 0, 0, 0,
   3, 0, 0, 0, 3, 0, 0, 0, 3, 0, 0, 0, 3, 0, 0, 0,
   97, 98, 99, 100,
   120, 120, 120, 121, 121, 121, 122, 122, 122, 119, 119, 119,
   1, 49, 0, 0, 0, 1, 0, 0, 0, 100]

/-!  Point lookup. -/

/-- CA_wo_hash (src/sort.cc lines 785-791): the legacy polynomial hash,
seed 0x2257d6803a6f1b2, multiplier 31, in uint64 arithmetic. -/
def caWoHash (key : List Nat) : Nat :=
  key.foldl (fun r c => (r * 31 + c) % u64Mod) 0x2257d6803a6f1b2

/-- The reader state SeekToKey works on (src/sort.cc lines 1000-1064).
The slot function gives the value the u16/u32/u64 switch reads from hash
slot h; keeping it abstract covers every slot width and every possible
content of the index region.  hashFn is modelled from the spec: the
non-legacy hash used for major version at least 2 is internal Hash from
src/util.h, absent from src; section 4.5 describes it only as a
non-cryptographic 64-bit mix, so it stays an arbitrary function. -/
structure SeekEnv where
  buffer : List Nat
  slot : Nat → Nat
  indexSize : Nat
  majorVersion : Nat
  flags : Nat
  bufferFill : Nat
  hashFn : List Nat → Nat

/-- Probe advance (src/sort.cc lines 1054-1060): linear with wrap for major
version at least 3, Fibonacci double-stepping with state fib = (2, 1) and a
collision counter below that. -/
def probeNext (env : SeekEnv) (h coll f0 f1 : Nat) : Nat × Nat × Nat × Nat :=
  if 3 ≤ env.majorVersion then
    (if h + 1 = env.indexSize then 0 else h + 1, coll, f0, f1)
  else
    if (coll + 1) % 2 = 1 then
      ((h + f1) % env.indexSize, coll + 1, f0, f1 + f0)
    else
      ((h + f0) % env.indexSize, coll + 1, f0 + f1, f1)

/-- The probe loop of WriteOnceTable::SeekToKey (src/sort.cc lines
1019-1061), with fuel making the potentially endless for(;;) loop a total
function: none models running out of fuel, some none a false return (empty
slot), some (some off) a true return with the cursor set to off.  A slot
value of zero returns false; a candidate inside [min_offset, max_offset]
has its stored key compared with the probe key (varint header skipped, then
the NUL-terminated string); equality returns true, otherwise on an
ascending table the matching bound is pulled in; out-of-range candidates
are treated as collisions. -/
def seekLoop (env : SeekEnv) (key : List Nat) :
    Nat → Nat → Nat → Nat → Nat → Nat → Nat → Option (Option Nat)
  | 0, _, _, _, _, _, _ => none
  | fuel + 1, h, mn, mx, coll, f0, f1 =>
    if env.slot h = 0 then some none
    else if mn ≤ env.slot h ∧ env.slot h ≤ mx then
      match lexCmp key (keyAt env.buffer (env.slot h)) with
      | .eq => some (some (env.slot h))
      | .lt =>
        seekLoop env key fuel (probeNext env h coll f0 f1).1 mn
          (if env.flags % 2 = 1 then env.slot h else mx)
          (probeNext env h coll f0 f1).2.1
          (probeNext env h coll f0 f1).2.2.1
          (probeNext env h coll f0 f1).2.2.2
      | .gt =>
        seekLoop env key fuel (probeNext env h coll f0 f1).1
          (if env.flags % 2 = 1 then env.slot h else mn) mx
          (probeNext env h coll f0 f1).2.1
          (probeNext env h coll f0 f1).2.2.1
          (probeNext env h coll f0 f1).2.2.2
    else
      seekLoop env key fuel (probeNext env h coll f0 f1).1 mn mx
        (probeNext env h coll f0 f1).2.1
        (probeNext env h coll f0 f1).2.2.1
        (probeNext env h coll f0 f1).2.2.2

/-- WriteOnceTable::SeekToKey (src/sort.cc lines 1000-1064): the legacy
hash below major version 2, the abstract hash otherwise, reduced mod
index_size; bounds start at [0, buffer_fill], the Fibonacci state at
(2, 1). -/
def seekToKeyM (env : SeekEnv) (key : List Nat) (fuel : Nat) :
    Option (Option Nat) :=
  seekLoop env key fuel
    ((if env.majorVersion < 2 then caWoHash key else env.hashFn key) %
      env.indexSize)
    0 env.bufferFill 0 2 1

theorem lexCmp_eq_iff : ∀ a b : List Nat, lexCmp a b = .eq ↔ a = b := by
  intro a
  induction a with
  | nil => intro b; cases b <;> simp [lexCmp]
  | cons x as ih =>
    intro b
    cases b with
    | nil => simp [lexCmp]
    | cons y bs =>
      by_cases hxy : x < y
      · simp [lexCmp, hxy]
        intro h; omega
      · by_cases hyx : y < x
        · simp [lexCmp, hxy, hyx]
          intro h; omega
        · have hx : x = y := Nat.le_antisymm (Nat.not_lt.mp hyx) (Nat.not_lt.mp hxy)
          simp [lexCmp, hxy, hyx, hx, ih bs]

theorem lexCmp_take_lt {n : Nat} : ∀ a b : List Nat,
    lexCmp (a.take n) (b.take n) = .lt → lexCmp a b = .lt := by
  induction n with
  | zero => intro a b h; simp [lexCmp] at h
  | succ n ih =>
    intro a b h
    cases a with
    | nil =>
      cases b with
      | nil => simp [lexCmp] at h
      | cons y bs => simp [lexCmp]
    | cons x as =>
      cases b with
      | nil => simp [lexCmp] at h
      | cons y bs =>
        by_cases hxy : x < y
        · simp [lexCmp, hxy]
        · by_cases hyx : y < x
          · simp [List.take, lexCmp, hxy, hyx] at h
          · simp only [List.take, lexCmp, hxy, hyx, if_false] at h ⊢
            exact ih as bs h

theorem lexCmp_take_gt {n : Nat} : ∀ a b : List Nat,
    lexCmp (a.take n) (b.take n) = .gt → lexCmp a b = .gt := by
  induction n with
  | zero => intro a b h; simp [lexCmp] at h
  | succ n ih =>
    intro a b h
    cases a with
    | nil =>
      cases b with
      | nil => simp [lexCmp] at h
      | cons y bs => simp [lexCmp] at h
    | cons x as =>
      cases b with
      | nil => simp [lexCmp]
      | cons y bs =>
        by_cases hxy : x < y
        · simp [List.take, lexCmp, hxy] at h
        · by_cases hyx : y < x
          · simp [lexCmp, hxy, hyx]
          · simp only [List.take, lexCmp, hxy, hyx, if_false] at h ⊢
            exact ih as bs h

theorem caFormatAuxGo_congr : ∀ v f1 f2 : Nat, v ≤ f1 → v ≤ f2 →
    caFormatAuxGo f1 v = caFormatAuxGo f2 v := by
  intro v
  induction v using Nat.strong_induction_on with
  | _ v ih =>
    intro f1 f2 h1 h2
    cases v with
    | zero => cases f1 <;> cases f2 <;> rfl
    | succ v =>
      cases f1 with
      | zero => omega
      | succ f1 =>
        cases f2 with
        | zero => omega
        | succ f2 =>
          have hd : (v + 1) / 128 < v + 1 := Nat.div_lt_self (by omega) (by omega)
          simp only [caFormatAuxGo]
          rw [ih ((v + 1) / 128) hd f1 f2 (by omega) (by omega)]

theorem caFormatAux_eq (v : Nat) :
    caFormatAux v =
      if v = 0 then [] else caFormatAux (v / 128) ++ [128 + v % 128] := by
  cases v with
  | zero => rfl
  | succ v =>
    have hd : (v + 1) / 128 < v + 1 := Nat.div_lt_self (by omega) (by omega)
    simp only [caFormatAux, caFormatAuxGo, if_neg (Nat.succ_ne_zero v)]
    rw [caFormatAuxGo_congr ((v + 1) / 128) v ((v + 1) / 128) (by omega)
      (Nat.le_refl _)]

theorem caParseAux_ge (cur acc : Nat) (l : List Nat) (h : 128 ≤ cur) :
    caParseAux cur acc l = caParseCont acc l := by
  cases l <;> simp [caParseAux, caParseCont, Nat.not_lt.mpr h]

theorem caParseCont_append (A : List Nat) (hA : ∀ b ∈ A, 128 ≤ b) :
    ∀ (acc : Nat) (B : List Nat),
    caParseCont acc (A ++ B) =
      (caParseCont (A.foldl (fun a b => (a * 128 + b % 128) % u64Mod) acc) B).map
        (fun p => (p.1, p.2 + A.length)) := by
  induction A with
  | nil =>
    intro acc B
    simp only [List.nil_append, List.foldl_nil, List.length_nil]
    cases h : caParseCont acc B <;> simp [h]
  | cons x A ih =>
    intro acc B
    have hx : 128 ≤ x := hA x (by simp)
    have hA' : ∀ b ∈ A, 128 ≤ b := fun b hb => hA b (by simp [hb])
    rw [List.cons_append]
    rw [show caParseCont acc (x :: (A ++ B)) =
        (caParseAux x ((acc * 128 + x % 128) % u64Mod) (A ++ B)).map
          (fun p => (p.1, p.2 + 1)) from rfl]
    rw [caParseAux_ge x _ _ hx, ih hA', List.foldl_cons, Option.map_map]
    congr 1

theorem caFormatAux_ge (v : Nat) : ∀ b ∈ caFormatAux v, 128 ≤ b := by
  induction v using Nat.strong_induction_on with
  | _ v ih =>
    rw [caFormatAux_eq]
    by_cases h : v = 0
    · simp [h]
    · rw [if_neg h]
      intro b hb
      rcases List.mem_append.mp hb with hl | hr
      · exact ih (v / 128) (Nat.div_lt_self (Nat.pos_of_ne_zero h) (by omega)) b hl
      · simp at hr; omega

theorem caFormatAux_foldl (v : Nat) (hv : v < u64Mod) :
    (caFormatAux v).foldl (fun a b => (a * 128 + b % 128) % u64Mod) 0 = v := by
  induction v using Nat.strong_induction_on with
  | _ v ih =>
    rw [caFormatAux_eq]
    by_cases h : v = 0
    · simp [h]
    · rw [if_neg h, List.foldl_append]
      have hdiv : v / 128 < u64Mod :=
        Nat.lt_of_le_of_lt (Nat.div_le_self v 128) hv
      rw [ih (v / 128) (Nat.div_lt_self (Nat.pos_of_ne_zero h) (by omega)) hdiv]
      simp only [List.foldl_cons, List.foldl_nil]
      have h128 : (128 + v % 128) % 128 = v % 128 := by omega
      rw [h128]
      have : v / 128 * 128 + v % 128 = v := by omega
      rw [this, Nat.mod_eq_of_lt hv]

theorem caParseCont_of_caParseInteger (l : List Nat) :
    caParseCont 0 l = (caParseInteger l).map (fun p => (p.1, p.2 + 1)) := by
  cases l with
  | nil => simp [caParseCont, caParseInteger]
  | cons b r =>
    have h : b % 128 % u64Mod = b % 128 :=
      Nat.mod_eq_of_lt (by simp only [u64Mod]; omega)
    simp [caParseCont, caParseInteger, h]

theorem caParseAux_lt (cur acc : Nat) (l : List Nat) (h : cur < 128) :
    caParseAux cur acc l = some (acc, 1) := by
  cases l <;> simp [caParseAux, h]

/-- Claim C9: for every uint64 value v, encoding v with ca_format_integer
(big-endian 7-bit groups, continuation bit set on every non-terminal byte)
and then decoding with ca_parse_integer yields v again, the decoder
consuming exactly the bytes the encoder wrote, whatever bytes follow. -/
theorem claimC9_varint_roundtrip (v : Nat) (h : v < u64Mod) (rest : List Nat) :
    caParseInteger (caFormatInteger v ++ rest) =
      some (v, (caFormatInteger v).length) := by
  have hdiv : v / 128 < u64Mod := Nat.lt_of_le_of_lt (Nat.div_le_self _ _) h
  have hstep : caParseCont (v / 128) (v % 128 :: rest) = some (v, 2) := by
    have h1 : (v / 128 * 128 + v % 128 % 128) % u64Mod = v := by
      simp only [u64Mod] at h ⊢
      omega
    rw [show caParseCont (v / 128) (v % 128 :: rest) =
        (caParseAux (v % 128) ((v / 128 * 128 + v % 128 % 128) % u64Mod)
          rest).map (fun p => (p.1, p.2 + 1)) from rfl]
    rw [h1, caParseAux_lt _ _ _ (Nat.mod_lt v (by omega))]
    rfl
  have hl : caParseCont 0 (caFormatInteger v ++ rest) =
      some (v, 2 + (caFormatAux (v / 128)).length) := by
    rw [caFormatInteger, List.append_assoc, List.cons_append, List.nil_append]
    rw [caParseCont_append _ (caFormatAux_ge (v / 128)) 0 (v % 128 :: rest)]
    rw [caFormatAux_foldl _ hdiv, hstep]
    rfl
  have hr := (caParseCont_of_caParseInteger (caFormatInteger v ++ rest)).symm
  rw [hl, Option.map_eq_some'] at hr
  obtain ⟨p, hp, hf⟩ := hr
  have hlen : (caFormatInteger v).length = (caFormatAux (v / 128)).length + 1 := by
    simp [caFormatInteger]
  rw [hp, hlen]
  cases p with
  | mk a b =>
    simp only [Prod.mk.injEq] at hf
    have : a = v ∧ b = (caFormatAux (v / 128)).length + 1 := by omega
    rw [this.1, this.2]

/-- Witness for claim C9 at the two-byte value 300. -/
theorem claimC9_witness :
    300 < u64Mod ∧
    caParseInteger (caFormatInteger 300 ++ []) =
      some (300, (caFormatInteger 300).length) :=
  ⟨by decide, claimC9_varint_roundtrip 300 (by decide) []⟩

theorem take_pfx (k : List Nat) :
    (k.take 24).take (min 24 k.length) = k.take 24 := by
  rw [List.take_take]
  have h1 : min (min 24 k.length) 24 = min 24 k.length := by omega
  rw [h1]
  rcases Nat.le_total k.length 24 with h | h
  · have h2 : min 24 k.length = k.length := by omega
    rw [h2, List.take_of_length_le (Nat.le_refl _),
      List.take_of_length_le h]
  · have h2 : min 24 k.length = 24 := by omega
    rw [h2]

/-- Claim C8: on entries satisfying the Entry invariant the hybrid
comparator of WriteOnceBuilder (inline fragment first, spill-file reads on a
full-fragment tie) induces exactly the byte-wise lexicographic strict order
of the two full keys. -/
theorem claimC8_comparator_is_lex (spill : List Nat) (l r : BEntry)
    (hl : EntryInv spill l) (hr : EntryInv spill r) :
    entryCompare spill l r = lexLt (entryKey spill l) (entryKey spill r) := by
  obtain ⟨hl1, hl2⟩ := hl
  obtain ⟨hr1, hr2⟩ := hr
  have hlp : l.pfx.take (min 24 l.key_size) = (entryKey spill l).take 24 := by
    rw [hl2, ← hl1]
    exact take_pfx _
  have hrp : r.pfx.take (min 24 r.key_size) = (entryKey spill r).take 24 := by
    rw [hr2, ← hr1]
    exact take_pfx _
  cases hc : lexCmp ((entryKey spill l).take 24) ((entryKey spill r).take 24) with
  | lt =>
    have hlt := lexCmp_take_lt (entryKey spill l) (entryKey spill r) hc
    simp [entryCompare, hlp, hrp, hc, lexLt, hlt]
    decide
  | gt =>
    have hgt := lexCmp_take_gt (entryKey spill l) (entryKey spill r) hc
    simp [entryCompare, hlp, hrp, hc, lexLt, hgt]
    decide
  | eq =>
    simp [entryCompare, hlp, hrp, hc]

/-- Witness for claim C8: two one-byte keys a and b on a two-byte spill. -/
theorem claimC8_witness :
    EntryInv [97, 98] ⟨0, 1, 0, [97]⟩ ∧
    EntryInv [97, 98] ⟨1, 1, 0, [98]⟩ ∧
    entryCompare [97, 98] ⟨0, 1, 0, [97]⟩ ⟨1, 1, 0, [98]⟩ =
      lexLt (entryKey [97, 98] ⟨0, 1, 0, [97]⟩)
        (entryKey [97, 98] ⟨1, 1, 0, [98]⟩) :=
  ⟨⟨rfl, rfl⟩, ⟨rfl, rfl⟩,
    claimC8_comparator_is_lex [97, 98] _ _ ⟨rfl, rfl⟩ ⟨rfl, rfl⟩⟩

theorem writeFinalGo_total (spill : List Nat) :
    ∀ (es : List BEntry) (cur : List (List Nat × List Nat)) (lastKey : List Nat),
    ∃ bs idx lc,
      writeFinalGo spill es cur lastKey = some (bs, idx, lc) ∧
      bs.flatten = cur ++
        (es.filter (fun e => decide (e.key_size + e.value_size ≤ kEntrySizeLimit))).map
          (fun e =>
            ((spillRead spill e.offset (e.key_size + e.value_size)).take e.key_size,
             (spillRead spill e.offset (e.key_size + e.value_size)).drop e.key_size)) ∧
      lc = (es.filter
        (fun e => decide (kEntrySizeLimit < e.key_size + e.value_size))).length := by
  intro es
  induction es with
  | nil =>
    intro cur lastKey
    by_cases h : cur.isEmpty
    · refine ⟨[], [], 0, ?_, ?_, rfl⟩
      · simp [writeFinalGo, h]
      · simp [List.isEmpty_iff.mp h]
    · refine ⟨[cur], [((blockMarshal cur).length, lastKey)], 0, ?_, ?_, rfl⟩
      · simp [writeFinalGo, h]
      · simp
  | cons e rest ih =>
    intro cur lastKey
    by_cases hbig : kEntrySizeLimit < e.key_size + e.value_size
    · obtain ⟨bs, idx, lc, heq, hj, hl⟩ := ih cur lastKey
      have hnot : ¬(e.key_size + e.value_size ≤ kEntrySizeLimit) :=
        Nat.not_le.mpr hbig
      refine ⟨bs, idx, lc + 1, ?_, ?_, ?_⟩
      · simp [writeFinalGo, hbig, heq]
      · simp [List.filter_cons, hnot, hj]
      · simp [List.filter_cons, hbig, hl]
    · have hsmall : e.key_size + e.value_size ≤ kEntrySizeLimit :=
        Nat.not_lt.mp hbig
      by_cases hfit : blockFits cur
          ((spillRead spill e.offset (e.key_size + e.value_size)).take e.key_size)
          ((spillRead spill e.offset (e.key_size + e.value_size)).drop e.key_size)
      · obtain ⟨bs, idx, lc, heq, hj, hl⟩ := ih
          (cur ++ [((spillRead spill e.offset (e.key_size + e.value_size)).take e.key_size,
            (spillRead spill e.offset (e.key_size + e.value_size)).drop e.key_size)])
          ((spillRead spill e.offset (e.key_size + e.value_size)).take e.key_size)
        refine ⟨bs, idx, lc, ?_, ?_, ?_⟩
        · simp [writeFinalGo, hbig, hfit, heq]
        · simp [List.filter_cons, hsmall, hj]
        · simp [List.filter_cons, hbig, hl]
      · have hfit0 : blockFits []
            ((spillRead spill e.offset (e.key_size + e.value_size)).take e.key_size)
            ((spillRead spill e.offset (e.key_size + e.value_size)).drop e.key_size) = true := by
          have hsp : (spillRead spill e.offset (e.key_size + e.value_size)).length ≤
              e.key_size + e.value_size := by
            simp [spillRead]
          simp only [blockFits, blockBytes, List.map_nil, List.sum_nil,
            kBlockSizeMax, Nat.zero_add, decide_eq_true_eq,
            List.length_take, List.length_drop]
          simp only [kEntrySizeLimit] at hsmall
          omega
        obtain ⟨bs, idx, lc, heq, hj, hl⟩ := ih
          [((spillRead spill e.offset (e.key_size + e.value_size)).take e.key_size,
            (spillRead spill e.offset (e.key_size + e.value_size)).drop e.key_size)]
          ((spillRead spill e.offset (e.key_size + e.value_size)).take e.key_size)
        refine ⟨cur :: bs, ((blockMarshal cur).length, lastKey) :: idx, lc, ?_, ?_, ?_⟩
        · simp [writeFinalGo, hbig, hfit, hfit0, heq]
        · simp [List.filter_cons, hsmall, hj]
        · simp [List.filter_cons, hbig, hl]

/-- Claim C1 (code bug): the file Build produces cannot be scanned back.
The writer emits the block layout (varint count, u32 size arrays, key
bytes, value bytes) while ReadRow decodes a record layout (varint record
size, NUL-terminated key, value), and the header index_offset that bounds
the scan is never written.  For the build of the single pair a:xxx, for
every possible stale index_offset value io and header garbage g0..g7, the
first ReadRow after SeekToFirst (cursor 24) returns end-of-table (io at or
below 24) or fails its size > key length assertion (io above 24), so the
scan never yields the ingested pair, contradicting the claimed round
trip. -/
theorem claimC1_scan_never_returns_ingested_pairs :
    writeOnceBuildData c1Pairs = some c1DataBytes ∧
    ∀ (io g0 g1 g2 g3 g4 g5 g6 g7 : Nat),
      readRowM (headerBytesG g0 g1 g2 g3 g4 g5 g6 g7 ++ c1DataBytes) 24 io =
        RowResult.eot ∨
      readRowM (headerBytesG g0 g1 g2 g3 g4 g5 g6 g7 ++ c1DataBytes) 24 io =
        RowResult.fail := by
  refine ⟨by decide, ?_⟩
  intro io g0 g1 g2 g3 g4 g5 g6 g7
  have hd : (headerBytesG g0 g1 g2 g3 g4 g5 g6 g7 ++ c1DataBytes).drop 24 =
      c1DataBytes := rfl
  by_cases h : io ≤ 24
  · left
    simp [readRowM, hd, h]
  · right
    simp only [readRowM, hd]
    rw [if_neg (by omega : ¬(24 : Nat) < 24)]
    rw [if_neg (show ¬(io ≤ 24 ∨ c1DataBytes.headD 0 = 0) from
      fun hor => hor.elim h (by decide))]
    decide

/-- Claim C2 (code bug): Build never writes a hash index (the only writes
are the header, the blocks and the block index descriptor; the hash slots
are populated by the reader-side BuildIndex, which nothing invokes), and
never sets index_offset, so SeekToKey probes stale data.  Moreover, for
the S1 build, no offset whatsoever inside the 59 data-region bytes holds a
stored key equal to the ingested key a under the readers key extraction
(skip the varint header, read the NUL-terminated string), so no slot value
pointing into the data region can ever make SeekToKey return true for a,
contradicting the claimed point-lookup hit. -/
theorem claimC2_no_record_matches_ingested_key :
    writeOnceBuildData s1Pairs = some s1DataBytes ∧
    ∀ t : Fin 59, keyAt s1DataBytes t.val ≠ [97] := by
  refine ⟨by decide, by decide⟩

/-- Claim C3 counterexample: for the build of the single pair a:xxx the
index region starts at absolute offset 37 (24 header bytes plus the
13-byte block), but the built header carries no index_offset value at all:
the assignment in CreateFile is commented out and CommitFile never touches
the header, so the claimed filled-in offset is absent. -/
theorem claimC3_counterexample :
    (writeOnceBuild c1Pairs).map (fun r => r.1.index_offset) = some none ∧
    (none : Option Nat) ≠ some 37 := by
  refine ⟨by decide, by decide⟩

/-- Claim C3 amended: after any successful Build the header holds
magic 0x6c6261742e692e70, major_version 4 (inside [2,4]) and
compression 0, but the index_offset field is never filled in - neither at
commit nor anywhere else in the writer. -/
theorem claimC3_header_fields_after_build (pairs : List (List Nat × List Nat)) :
    ∃ d, writeOnceBuild pairs = some (createFileHeader, d) ∧
      createFileHeader.magic = 0x6c6261742e692e70 ∧
      createFileHeader.major_version = 4 ∧
      2 ≤ createFileHeader.major_version ∧
      createFileHeader.major_version ≤ 4 ∧
      createFileHeader.compression = 0 ∧
      createFileHeader.index_offset = none := by
  obtain ⟨bs, idx, lc, h1, h2, h3⟩ := writeFinalGo_total (ingest pairs).2
    (stableSortOf (entryCompare (ingest pairs).2) (ingest pairs).1) [] []
  refine ⟨(bs.map blockMarshal).flatten ++ indexMarshal idx, ?_, rfl, rfl,
    by decide, by decide, rfl, rfl⟩
  simp only [writeOnceBuild, h1]
  rfl

/-- Claim C4 (code bug): building with zero Add calls writes only the
24-byte header (the empty block and empty index marshal to nothing), and
MemoryMap requires the file to be strictly longer than the header, so the
reopen fails for every possible image of the uninitialized index_offset
bytes - while the claim (and the EmptyTableOK test) demand it succeed. -/
theorem claimC4_empty_build_fails_to_reopen :
    writeOnceBuildData [] = some [] ∧
    ∀ g0 g1 g2 g3 g4 g5 g6 g7 : Nat,
      memoryMapCheck (headerBytesG g0 g1 g2 g3 g4 g5 g6 g7 ++ ([] : List Nat)) =
        false := by
  refine ⟨rfl, ?_⟩
  intro g0 g1 g2 g3 g4 g5 g6 g7
  rfl

/-- Claim C5 (code bug): CreateFile hard-codes the ascending flag into the
header of every build (src/sort.cc line 568), and no code on the reopen
path recomputes it (BuildIndex, which would, is never called), so
is_sorted() returns true even for the unsorted S3 ingest order
a, c, d, b - the claim and the CanWriteThenReadUnsorted test expect
false. -/
theorem claimC5_is_sorted_true_even_when_unsorted :
    (writeOnceBuild s3Pairs).map (fun r => isSortedHeader r.1) = some true ∧
    ∀ (g0 g1 g2 g3 g4 g5 g6 g7 : Nat) (data : List Nat),
      isSortedFile (headerBytesG g0 g1 g2 g3 g4 g5 g6 g7 ++ data) = true := by
  refine ⟨by decide, ?_⟩
  intro g0 g1 g2 g3 g4 g5 g6 g7 data
  rfl

/-- Claim C6 (code bug): the version gate of MemoryMap is
major_version <= 4 OR major_version >= 2, which every byte value
satisfies: versions 0, 1, 5 and 255 pass just like 2, 3 and 4, so opening
never fails on the version check although the claim (and the intended
range [2,4], spec section 9 open question 4) requires rejection outside
[2,4]. -/
theorem claimC6_version_gate_accepts_everything :
    versionOk 5 = true ∧ versionOk 1 = true ∧ versionOk 0 = true ∧
    versionOk 255 = true ∧
    versionOk 2 = true ∧ versionOk 3 = true ∧ versionOk 4 = true := by
  decide

/-- Claim C7 counterexample: the pair with a 1-byte key and an 8192-byte
value has key_size + value_size = 8193, at most 16384 = 16 KiB, yet Build
skips it: the output data region is empty (no block holds it) and the
large counter ends at 1, because the code compares against
kEntrySizeLimit = kBlockSizeMin / 2 = 8192, not against 16 KiB. -/
theorem claimC7_counterexample :
    1 + 8192 ≤ 16384 ∧
    writeFinalGo ([1] ++ List.replicate 8192 0) [⟨0, 1, 8192, [1]⟩] [] [] =
      some ([], [], 1) := by
  refine ⟨by decide, ?_⟩
  rfl

/-- Claim C7 amended: during block emission every sorted entry with
key_size + value_size above kEntrySizeLimit = 8192 bytes (8 KiB) is
skipped and counted as large, and every entry of at most 8192 bytes is
emitted into some block: emission always succeeds, the emitted blocks
flatten to exactly the kept entries in order, and the large count equals
the number of oversized entries. -/
theorem claimC7_entry_size_limit_is_8192 (spill : List Nat) (es : List BEntry) :
    ∃ bs idx lc,
      writeFinalGo spill es [] [] = some (bs, idx, lc) ∧
      bs.flatten =
        (es.filter (fun e => decide (e.key_size + e.value_size ≤ kEntrySizeLimit))).map
          (fun e =>
            ((spillRead spill e.offset (e.key_size + e.value_size)).take e.key_size,
             (spillRead spill e.offset (e.key_size + e.value_size)).drop e.key_size)) ∧
      lc = (es.filter
        (fun e => decide (kEntrySizeLimit < e.key_size + e.value_size))).length := by
  obtain ⟨bs, idx, lc, h1, h2, h3⟩ := writeFinalGo_total spill es [] []
  exact ⟨bs, idx, lc, h1, by simpa using h2, h3⟩

theorem seekLoop_sound (env : SeekEnv) (key : List Nat) :
    ∀ (fuel h mn mx coll f0 f1 off : Nat),
    seekLoop env key fuel h mn mx coll f0 f1 = some (some off) →
    keyAt env.buffer off = key := by
  intro fuel
  induction fuel with
  | zero => intro h mn mx coll f0 f1 off hres; simp [seekLoop] at hres
  | succ fuel ih =>
    intro h mn mx coll f0 f1 off hres
    rw [seekLoop] at hres
    by_cases h0 : env.slot h = 0
    · rw [if_pos h0] at hres
      simp at hres
    · rw [if_neg h0] at hres
      by_cases hrange : mn ≤ env.slot h ∧ env.slot h ≤ mx
      · rw [if_pos hrange] at hres
        cases hc : lexCmp key (keyAt env.buffer (env.slot h)) with
        | eq =>
          rw [hc] at hres
          simp at hres
          rw [← hres, (lexCmp_eq_iff key (keyAt env.buffer (env.slot h))).mp hc]
        | lt =>
          rw [hc] at hres
          exact ih _ _ _ _ _ _ _ hres
        | gt =>
          rw [hc] at hres
          exact ih _ _ _ _ _ _ _ hres
      · rw [if_neg hrange] at hres
        exact ih _ _ _ _ _ _ _ hres

/-- Claim C10: whenever SeekToKey returns true, the record at the offset
the cursor was set to stores (as a NUL-terminated byte string after the
varint record header) exactly the probe key; the contents of the hash
slots, the hash function, the version, the flags and the probe bounds can
never produce a true result without that final key comparison
succeeding. -/
theorem claimC10_seek_true_means_stored_key_equal (env : SeekEnv)
    (key : List Nat) (fuel off : Nat)
    (hres : seekToKeyM env key fuel = some (some off)) :
    keyAt env.buffer off = key :=
  seekLoop_sound env key fuel _ _ _ _ _ _ off hres

/-- Witness for claim C10: a 30-byte buffer holding one record (size 5,
key a, value xxx) at offset 24 and a single hash slot pointing at it. -/
theorem claimC10_witness :
    seekToKeyM
      ⟨List.replicate 24 0 ++ [5, 97, 0, 120, 120, 120], fun _ => 24,
        1, 1, 1, 30, fun _ => 0⟩ [97] 1 = some (some 24) ∧
    keyAt (List.replicate 24 0 ++ [5, 97, 0, 120, 120, 120]) 24 = [97] :=
  ⟨by decide,
    claimC10_seek_true_means_stored_key_equal
      ⟨List.replicate 24 0 ++ [5, 97, 0, 120, 120, 120], fun _ => 24,
        1, 1, 1, 30, fun _ => 0⟩ [97] 1 24 (by decide)⟩
